import Mathlib

/-!
# Verification of the Unicode word tokenizer (`src/unicode_tokenizer.rs`)

This file shallowly embeds the tokenizer pipeline of the repository:
word segmentation, intra-word splitting with apostrophe elision,
cross-word apostrophe merging, dash-compound expansion, and the
pull-based token stream.  Texts are lists of characters; byte offsets
are computed from the UTF-8 size of each character, exactly as Rust's
`char_indices` does.  Machine integers (`usize`) are modelled as `Nat`
with explicit reduction modulo `2 ^ 64` where the code wraps.
-/

namespace UnicodeTokenizer

/-- The modulus of Rust's 64-bit `usize`. -/
def USIZE : Nat := 2 ^ 64

/-- Byte length of a character sequence under UTF-8, mirroring
Rust's byte indexing of `&str`. -/
def utf8Len (l : List Char) : Nat :=
  l.foldr (fun c n => c.utf8Size + n) 0

/-- Modelled from the spec: the word-forming ("letters/digits") character
class used by the Word Segmenter (§4.1) and by the Intra-Word Splitter's
alphanumeric test (Rust's `char::is_alphanumeric`, which is not part of
this repository).  It covers ASCII alphanumerics, Latin-1 and Latin
Extended-A letters, and the spacing modifier letters U+02B0..U+02C1
(all of which have the Unicode `Alphabetic` property; the last range
contains the modifier-letter apostrophe U+02BC and modifier-letter
prime U+02B9). -/
def isAlnumChar (c : Char) : Bool :=
  (('a' ≤ c && c ≤ 'z') || ('A' ≤ c && c ≤ 'Z') || ('0' ≤ c && c ≤ '9')
    || (0xC0 ≤ c.toNat && c.toNat ≤ 0xD6)
    || (0xD8 ≤ c.toNat && c.toNat ≤ 0xF6)
    || (0xF8 ≤ c.toNat && c.toNat ≤ 0x17F)
    || (0x2B0 ≤ c.toNat && c.toNat ≤ 0x2C1))

/-- `is_apostrophe_like` from the source: the fixed set of
apostrophe-lookalike code points. -/
def is_apostrophe_like (ch : Char) : Bool :=
  ch = '\''
    || ch = '’' -- RIGHT SINGLE QUOTATION MARK
    || ch = '‘' -- LEFT SINGLE QUOTATION MARK
    || ch = '‛' -- SINGLE HIGH-REVERSED-9 QUOTATION MARK
    || ch = 'ʼ' -- MODIFIER LETTER APOSTROPHE
    || ch = '＇' -- FULLWIDTH APOSTROPHE
    || ch = '`' -- GRAVE ACCENT
    || ch = '´' -- ACUTE ACCENT
    || ch = 'ʹ' -- MODIFIER LETTER PRIME
    || ch = '′' -- PRIME

/-- `separator_is_apostrophe_run` from the source. -/
def separator_is_apostrophe_run (separator : List Char) : Bool :=
  !separator.isEmpty && separator.all is_apostrophe_like

/-- `is_dash_like` from the source: the fixed set of dash-lookalike
code points. -/
def is_dash_like (ch : Char) : Bool :=
  ch = '-'
    || ch = '‐' -- HYPHEN
    || ch = '‑' -- NON-BREAKING HYPHEN
    || ch = '‒' -- FIGURE DASH
    || ch = '–' -- EN DASH
    || ch = '—' -- EM DASH
    || ch = '―' -- HORIZONTAL BAR
    || ch = '−' -- MINUS SIGN
    || ch = '﹣' -- SMALL HYPHEN-MINUS
    || ch = '－' -- FULLWIDTH HYPHEN-MINUS

/-- `separator_is_dash_run` from the source. -/
def separator_is_dash_run (separator : List Char) : Bool :=
  !separator.isEmpty && separator.all is_dash_like

/-- `PendingToken` from the source: text plus a byte-offset span. -/
structure PendingToken where
  text : List Char
  offset_from : Nat
  offset_to : Nat
deriving Repr, DecidableEq

/-- Drop the characters occupying the first `n` bytes (on well-aligned
inputs; total on all inputs), modelling the start of a Rust byte slice. -/
def dropBytes : List Char → Nat → List Char
  | l, 0 => l
  | [], _ + 1 => []
  | c :: rest, n + 1 => dropBytes rest (n + 1 - c.utf8Size)

/-- Take the characters occupying the first `n` bytes (on well-aligned
inputs; total on all inputs), modelling the end of a Rust byte slice. -/
def takeBytes : List Char → Nat → List Char
  | _, 0 => []
  | [], _ + 1 => []
  | c :: rest, n + 1 =>
    if c.utf8Size ≤ n + 1 then c :: takeBytes rest (n + 1 - c.utf8Size) else []

/-- The byte slice `text[a..b]`, modelling Rust's `&text[a..b]` on
character-boundary-aligned in-bounds ranges (the only ranges the
pipeline produces, see the safety claim). -/
def sliceBytes (text : List Char) (a b : Nat) : List Char :=
  takeBytes (dropBytes text a) (b - a)

/-- `flush_pending_token` from the source: push the accumulator as a
finished token when it has a start and non-empty text.  (The source
also resets the accumulator; the callers below pass the reset values
explicitly.) -/
def flush_pending_token (tokens : List PendingToken) (word_offset : Nat)
    (current_text : List Char) (current_start : Option Nat)
    (current_end : Nat) : List PendingToken :=
  match current_start with
  | some start =>
    if current_text.isEmpty then tokens
    else tokens ++ [⟨current_text, word_offset + start, word_offset + current_end⟩]
  | none => tokens

/-- `prev_is_alnum` of the source loop: whether the previously examined
character exists and is alphanumeric. -/
def optCharIsAlnum : Option Char → Bool
  | some p => isAlnumChar p
  | none => false

/-- `next_is_alnum` of the source loop: whether a next character exists
and is alphanumeric. -/
def headIsAlnum : List Char → Bool
  | c :: _ => isAlnumChar c
  | [] => false

/-- The character loop of `split_word_tokens`: `rest` is the unprocessed
suffix of the word, `byteIdx` its byte offset within the word, `prev`
the previously examined character; `tokens`, `current_text`,
`current_start` and `current_end` are the loop state of the source. -/
def splitWordLoop (word_offset : Nat) : List Char → Nat → Option Char →
    List PendingToken → List Char → Option Nat → Nat → List PendingToken
  | [], _, _, tokens, current_text, current_start, current_end =>
    flush_pending_token tokens word_offset current_text current_start current_end
  | ch :: tail, byteIdx, prev, tokens, current_text, current_start, current_end =>
    let next_byte_idx := byteIdx + ch.utf8Size
    let prev_is_alnum := optCharIsAlnum prev
    let next_is_alnum := headIsAlnum tail
    if is_apostrophe_like ch && prev_is_alnum && next_is_alnum then
      splitWordLoop word_offset tail next_byte_idx (some ch)
        tokens current_text current_start next_byte_idx
    else if isAlnumChar ch then
      splitWordLoop word_offset tail next_byte_idx (some ch)
        tokens (current_text ++ [ch])
        (match current_start with | none => some byteIdx | some s => some s)
        next_byte_idx
    else
      splitWordLoop word_offset tail next_byte_idx (some ch)
        (flush_pending_token tokens word_offset current_text current_start current_end)
        [] none 0

/-- `split_word_tokens` from the source. -/
def split_word_tokens (word_offset : Nat) (word : List Char) : List PendingToken :=
  splitWordLoop word_offset word 0 none [] [] none 0

/-- The scanning loop of the word segmenter model: `b` is the byte
offset of `rest` in the text, `acc` the start offset and characters of
the alphanumeric run in progress. -/
def segLoop : List Char → Nat → Option (Nat × List Char) → List (Nat × List Char)
  | [], _, none => []
  | [], _, some (s, run) => [(s, run)]
  | c :: rest, b, none =>
    if isAlnumChar c then segLoop rest (b + c.utf8Size) (some (b, [c]))
    else segLoop rest (b + c.utf8Size) none
  | c :: rest, b, some (s, run) =>
    if isAlnumChar c then segLoop rest (b + c.utf8Size) (some (s, run ++ [c]))
    else (s, run) :: segLoop rest (b + c.utf8Size) none

/-- Modelled from the spec: the Word Segmenter (§4.1), i.e. the
`unicode_word_indices` iterator of the external `unicode-segmentation`
crate, which is not part of this repository.  Following the spec's
words — "a word is a maximal run of word characters; whitespace,
punctuation-only runs ... are dropped, not emitted" — it yields the
maximal runs of word-forming characters together with their byte
offsets. -/
def unicode_word_indices (text : List Char) : List (Nat × List Char) :=
  segLoop text 0 none

/-- One step of the merge loop in `tokenize_text`: append `token` to
`merged`, except that when the separator between the last merged token
and `token` is a run of apostrophe-like characters the two are merged
in place. -/
def mergeStep (text : List Char) (merged : List PendingToken)
    (token : PendingToken) : List PendingToken :=
  match merged.getLast? with
  | some last_token =>
    if last_token.offset_to ≤ token.offset_from then
      if separator_is_apostrophe_run
          (sliceBytes text last_token.offset_to token.offset_from) then
        merged.dropLast ++
          [⟨last_token.text ++ token.text, last_token.offset_from, token.offset_to⟩]
      else merged ++ [token]
    else merged ++ [token]
  | none => merged ++ [token]

/-- The inner `while` of `expand_dash_compounds`: starting from the
combined token built so far, keep consuming following tokens while the
separator to the next token is a dash run.  Returns the consumed
sub-tokens (in order), the final combined token, and the remaining
tokens.  A dash bridge was found iff the first component is non-empty. -/
def collectDashRun (text : List Char) (combined : PendingToken) :
    List PendingToken → List PendingToken × PendingToken × List PendingToken
  | [] => ([], combined, [])
  | t :: rest =>
    if separator_is_dash_run (sliceBytes text combined.offset_to t.offset_from) then
      let res := collectDashRun text
        ⟨combined.text ++ t.text, combined.offset_from, t.offset_to⟩ rest
      (t :: res.1, res.2.1, res.2.2)
    else ([], combined, t :: rest)

/-- The outer `while` of `expand_dash_compounds`, with explicit fuel:
the source loop runs at most one iteration per token, so the list
length is sufficient fuel (proved below). -/
def expandLoopF (text : List Char) : Nat → List PendingToken → List PendingToken
  | 0, _ => []
  | _ + 1, [] => []
  | fuel + 1, t :: rest =>
    let res := collectDashRun text t rest
    if res.1.isEmpty then t :: expandLoopF text fuel rest
    else t :: (res.1 ++ res.2.1 :: expandLoopF text fuel res.2.2)

/-- `expand_dash_compounds` from the source. -/
def expand_dash_compounds (tokens : List PendingToken) (text : List Char) :
    List PendingToken :=
  expandLoopF text tokens.length tokens

/-- The per-word token lists of `tokenize_text`, concatenated in order. -/
def splitTokens (text : List Char) : List PendingToken :=
  ((unicode_word_indices text).map (fun w => split_word_tokens w.1 w.2)).flatten

/-- The merged token list of `tokenize_text` (the state of
`merged_tokens` after the word loop): the source merges each new token
into the accumulated list as it is produced, which is a left fold of
`mergeStep` over the concatenated per-word token lists. -/
def mergedTokens (text : List Char) : List PendingToken :=
  (splitTokens text).foldl (mergeStep text) []

/-- `tokenize_text` from the source. -/
def tokenize_text (text : List Char) : List PendingToken :=
  expand_dash_compounds (mergedTokens text) text

/-- Modelled from the spec: the externally visible `Token` (§3) of the
`tantivy` crate, which is not part of this repository.  Fields: text,
half-open byte span, and the unsigned wrapping position counter. -/
structure Token where
  text : List Char
  offset_from : Nat
  offset_to : Nat
  position : Nat
deriving Repr, DecidableEq

/-- Modelled from the spec: `tantivy::tokenizer::Token::default()`.
Its position starts at `usize::MAX`, one below the first emitted value,
so the first wrapping increment of `advance` yields position `0` — as
the repository's own tests require (`assert_token(&tokens[0], 0, ...)`). -/
def Token.default : Token :=
  ⟨[], 0, 0, USIZE - 1⟩

/-- `UnicodeTokenStream` from the source: the pending token queue and
the (mutably borrowed) token of the owning `UnicodeTokenizer`. -/
structure StreamState where
  pending_tokens : List PendingToken
  token : Token
deriving Repr, DecidableEq

/-- `UnicodeTokenizer::token_stream` from the source: computes the
pending tokens for `text` and lends the tokenizer's token to the
stream.  Note that the token — in particular its position counter — is
not reset. -/
def token_stream (tokenizerToken : Token) (text : List Char) : StreamState :=
  ⟨tokenize_text text, tokenizerToken⟩

/-- `UnicodeTokenStream::advance` from the source: pop the next pending
token, clear the text and refill it, wrap-increment the position and
update the offsets; at exhaustion return `false` and change nothing. -/
def advance (s : StreamState) : Bool × StreamState :=
  match s.pending_tokens with
  | next_token :: rest =>
    (true,
      ⟨rest,
        ⟨next_token.text, next_token.offset_from, next_token.offset_to,
          (s.token.position + 1) % USIZE⟩⟩)
  | [] => (false, s)

/-- Repeatedly `advance`, with fuel, collecting each emitted token and
the final token state; `pending_tokens.length` fuel is exact. -/
def emitFrom : Nat → StreamState → List Token × Token
  | 0, s => ([], s.token)
  | fuel + 1, s =>
    match advance s with
    | (true, s') =>
      let res := emitFrom fuel s'
      (s'.token :: res.1, res.2)
    | (false, _) => ([], s.token)

/-- Drain a stream: all emitted tokens in order, and the final state of
the lent token (which the owning tokenizer keeps for its next stream). -/
def emitAll (s : StreamState) : List Token × Token :=
  emitFrom s.pending_tokens.length s

/-- Run one full tokenization on a tokenizer instance whose token state
is `tok`: the emitted tokens and the instance's token state afterwards. -/
def tokenizeOn (tok : Token) (text : List Char) : List Token × Token :=
  emitAll (token_stream tok text)

/-- `n` is a character (= UTF-8 byte) boundary of `text`. -/
def isCharBoundary : List Char → Nat → Bool
  | _, 0 => true
  | [], _ + 1 => false
  | c :: rest, n + 1 =>
    if c.utf8Size ≤ n + 1 then isCharBoundary rest (n + 1 - c.utf8Size) else false

/-- The well-formedness facts the pipeline guarantees for every pending
token: ordered in-bounds span on character boundaries, and text no
longer than its span. -/
def GoodToken (text : List Char) (t : PendingToken) : Prop :=
  t.offset_from ≤ t.offset_to ∧ t.offset_to ≤ utf8Len text ∧
    isCharBoundary text t.offset_from = true ∧
    isCharBoundary text t.offset_to = true ∧
    utf8Len t.text ≤ t.offset_to - t.offset_from

/-- Facts established for each token produced by the Intra-Word
Splitter, relative to its word: an ordered span lying on character
boundaries of the word (shifted by the word offset), and text no
longer than the span. -/
def SplitTokOK (ofs : Nat) (w : List Char) (t : PendingToken) : Prop :=
  t.offset_from ≤ t.offset_to
  ∧ (∃ i, t.offset_from = ofs + utf8Len (w.take i))
  ∧ (∃ j, t.offset_to = ofs + utf8Len (w.take j))
  ∧ utf8Len t.text ≤ t.offset_to - t.offset_from

/-! ## Characterization of the separator predicates -/

/-- `separator_is_apostrophe_run` in the words of the spec: the
separator is non-empty and consists entirely of apostrophe-like
characters. -/
theorem separator_is_apostrophe_run_iff (s : List Char) :
    separator_is_apostrophe_run s = true ↔
      s ≠ [] ∧ s.all is_apostrophe_like = true := by
  cases s <;> simp [separator_is_apostrophe_run]

/-- `separator_is_dash_run` in the words of the spec: the separator is
non-empty and consists entirely of dash-like characters. -/
theorem separator_is_dash_run_iff (s : List Char) :
    separator_is_dash_run s = true ↔ s ≠ [] ∧ s.all is_dash_like = true := by
  cases s <;> simp [separator_is_dash_run]

/-! ## Dash-compound expansion lemmas -/

/-- The remaining tokens returned by the inner run-collection loop form
a sublist no longer than its input. -/
theorem collectDashRun_rem_length (text : List Char) :
    ∀ (l : List PendingToken) (acc : PendingToken),
      (collectDashRun text acc l).2.2.length ≤ l.length := by
  intro l
  induction l with
  | nil => intro acc; simp [collectDashRun]
  | cons t rest ih =>
    intro acc
    by_cases h : separator_is_dash_run (sliceBytes text acc.offset_to t.offset_from)
      = true
    · simp only [collectDashRun, h, if_true]
      exact le_trans (ih _) (Nat.le_succ _)
    · simp [collectDashRun, h]

/-- The outer expansion loop does not depend on the exact fuel value as
long as the fuel covers the list length. -/
theorem expandLoopF_congr (text : List Char) :
    ∀ (f1 : Nat) (l : List PendingToken) (f2 : Nat),
      l.length ≤ f1 → l.length ≤ f2 →
      expandLoopF text f1 l = expandLoopF text f2 l := by
  intro f1
  induction f1 with
  | zero =>
    intro l f2 h1 _
    have hl : l = [] := List.length_eq_zero.mp (Nat.le_zero.mp h1)
    subst hl
    cases f2 <;> rfl
  | succ f1 ih =>
    intro l f2 h1 h2
    cases l with
    | nil => cases f2 <;> rfl
    | cons t rest =>
      cases f2 with
      | zero => simp at h2
      | succ f2 =>
        simp only [List.length_cons, Nat.add_le_add_iff_right] at h1 h2
        simp only [expandLoopF]
        by_cases h : (collectDashRun text t rest).1.isEmpty = true
        · rw [if_pos h, if_pos h, ih rest f2 h1 h2]
        · rw [if_neg h, if_neg h,
            ih (collectDashRun text t rest).2.2 f2
              (le_trans (collectDashRun_rem_length text rest t) h1)
              (le_trans (collectDashRun_rem_length text rest t) h2)]

/-- Running the inner collection loop along a dash-bridged chain
consumes exactly the chain: the consumed sub-tokens are returned in
order, the combined token concatenates all their texts onto the
accumulator and spans to the last sub-token's end, and the tokens after
the chain are left untouched. -/
theorem collectDashRun_chain (text : List Char) :
    ∀ (run : List PendingToken) (acc : PendingToken) (rem : List PendingToken),
      List.Chain (fun a b =>
        separator_is_dash_run (sliceBytes text a.offset_to b.offset_from) = true)
        acc run →
      (∀ b, rem.head? = some b →
        separator_is_dash_run
          (sliceBytes text (run.getLastD acc).offset_to b.offset_from) = false) →
      collectDashRun text acc (run ++ rem)
        = (run,
           ⟨acc.text ++ (run.map PendingToken.text).flatten, acc.offset_from,
             (run.getLastD acc).offset_to⟩,
           rem) := by
  intro run
  induction run with
  | nil =>
    intro acc rem _ hmax
    cases rem with
    | nil => simp [collectDashRun]
    | cons b rem' =>
      have hb : separator_is_dash_run (sliceBytes text acc.offset_to b.offset_from)
          = false := hmax b rfl
      simp [collectDashRun, hb]
  | cons b bs ih =>
    intro acc rem hchain hmax
    rw [List.chain_cons] at hchain
    obtain ⟨hab, hchain'⟩ := hchain
    have hstep : collectDashRun text acc ((b :: bs) ++ rem)
        = (b :: (collectDashRun text
              ⟨acc.text ++ b.text, acc.offset_from, b.offset_to⟩ (bs ++ rem)).1,
           (collectDashRun text
              ⟨acc.text ++ b.text, acc.offset_from, b.offset_to⟩ (bs ++ rem)).2.1,
           (collectDashRun text
              ⟨acc.text ++ b.text, acc.offset_from, b.offset_to⟩ (bs ++ rem)).2.2) := by
      simp only [List.cons_append, collectDashRun, hab, if_true, List.append_eq]
    have hchain'' : List.Chain (fun a b =>
        separator_is_dash_run (sliceBytes text a.offset_to b.offset_from) = true)
        (⟨acc.text ++ b.text, acc.offset_from, b.offset_to⟩ : PendingToken) bs := by
      cases hchain' with
      | nil => exact List.Chain.nil
      | cons h t => exact List.Chain.cons h t
    have hlast : (bs.getLastD
          (⟨acc.text ++ b.text, acc.offset_from, b.offset_to⟩ : PendingToken)).offset_to
        = (bs.getLastD b).offset_to := by
      cases bs with
      | nil => rfl
      | cons c cs => rw [List.getLastD_cons, List.getLastD_cons]
    have hmax' : ∀ b', rem.head? = some b' →
        separator_is_dash_run
          (sliceBytes text
            (bs.getLastD
              (⟨acc.text ++ b.text, acc.offset_from, b.offset_to⟩ : PendingToken)).offset_to
            b'.offset_from) = false := by
      intro b' hb'
      rw [hlast]
      have := hmax b' hb'
      rwa [List.getLastD_cons] at this
    have hrec := ih ⟨acc.text ++ b.text, acc.offset_from, b.offset_to⟩ rem hchain'' hmax'
    rw [hstep, hrec]
    simp only [List.map_cons, List.flatten_cons, List.getLastD_cons,
      List.append_assoc, hlast]

/-- A token not dash-bridged to its successor passes through the
expander unchanged and contributes no extra token. -/
theorem expand_cons_of_not_bridged (text : List Char) (t : PendingToken)
    (rest : List PendingToken)
    (h : ∀ b, rest.head? = some b →
      separator_is_dash_run (sliceBytes text t.offset_to b.offset_from) = false) :
    expand_dash_compounds (t :: rest) text = t :: expand_dash_compounds rest text := by
  have hc : collectDashRun text t rest = ([], t, rest) := by
    cases rest with
    | nil => rfl
    | cons b rest' => simp [collectDashRun, h b rfl]
  show expandLoopF text (rest.length + 1) (t :: rest) = _
  simp only [expandLoopF, hc, List.isEmpty_nil, if_true]
  rfl

/-- A maximal dash-bridged run at the head of the token list is
expanded to its sub-tokens followed by exactly one compound token. -/
theorem expand_cons_run (text : List Char) (t : PendingToken)
    (run rem : List PendingToken)
    (hchain : List.Chain (fun a b =>
      separator_is_dash_run (sliceBytes text a.offset_to b.offset_from) = true) t run)
    (hrun : run ≠ [])
    (hmax : ∀ b, rem.head? = some b →
      separator_is_dash_run
        (sliceBytes text (run.getLastD t).offset_to b.offset_from) = false) :
    expand_dash_compounds (t :: (run ++ rem)) text
      = t :: (run ++
          (⟨t.text ++ (run.map PendingToken.text).flatten, t.offset_from,
            (run.getLastD t).offset_to⟩ : PendingToken)
          :: expand_dash_compounds rem text) := by
  have hc := collectDashRun_chain text run t rem hchain hmax
  show expandLoopF text ((run ++ rem).length + 1) (t :: (run ++ rem)) = _
  simp only [expandLoopF, hc]
  rw [if_neg (by simpa [List.isEmpty_iff] using hrun)]
  rw [expandLoopF_congr text (run ++ rem).length rem rem.length
    (by simp) (le_refl _)]
  rfl

/-! ## Byte-length lemmas -/

theorem utf8Len_nil : utf8Len [] = 0 := rfl

theorem utf8Len_cons (c : Char) (l : List Char) :
    utf8Len (c :: l) = c.utf8Size + utf8Len l := rfl

theorem utf8Len_append (l1 l2 : List Char) :
    utf8Len (l1 ++ l2) = utf8Len l1 + utf8Len l2 := by
  induction l1 with
  | nil => simp [utf8Len_nil]
  | cons c l ih => simp [utf8Len_cons, ih, Nat.add_assoc]

theorem getLastD_mem : ∀ (l : List Char) (d : Char), l ≠ [] → l.getLastD d ∈ l
  | [c], _, _ => by simp
  | c :: cc :: cs, _, _ => by
    rw [List.getLastD_cons]
    exact List.mem_cons_of_mem _ (getLastD_mem (cc :: cs) c (by simp))

/-! ## Character-boundary lemmas -/

theorem isCharBoundary_zero (l : List Char) : isCharBoundary l 0 = true := by
  cases l <;> rfl

theorem isCharBoundary_cons_add (c : Char) (rest : List Char) (n : Nat) :
    isCharBoundary (c :: rest) (c.utf8Size + n) = isCharBoundary rest n := by
  obtain ⟨m, hm⟩ : ∃ m, c.utf8Size = m + 1 :=
    ⟨c.utf8Size - 1, by have := Char.utf8Size_pos c; omega⟩
  have h2 : c.utf8Size + n = (m + n) + 1 := by omega
  rw [h2]
  show (if c.utf8Size ≤ m + n + 1 then isCharBoundary rest (m + n + 1 - c.utf8Size)
    else false) = isCharBoundary rest n
  rw [if_pos (by omega)]
  congr 1
  omega

/-- Every prefix byte length is a character boundary. -/
theorem isCharBoundary_take (l : List Char) :
    ∀ k, isCharBoundary l (utf8Len (l.take k)) = true := by
  induction l with
  | nil => intro k; simp [List.take_nil, utf8Len_nil, isCharBoundary_zero]
  | cons c rest ih =>
    intro k
    cases k with
    | zero => simp [utf8Len_nil, isCharBoundary_zero]
    | succ k =>
      rw [List.take_succ_cons, utf8Len_cons, isCharBoundary_cons_add]
      exact ih k

/-- A character boundary of a list is a boundary of any extension. -/
theorem isCharBoundary_append_left (l : List Char) :
    ∀ (post : List Char) (n : Nat), isCharBoundary l n = true →
      isCharBoundary (l ++ post) n = true := by
  induction l with
  | nil =>
    intro post n h
    cases n with
    | zero => simp [isCharBoundary_zero]
    | succ n => exact absurd h (by simp [isCharBoundary])
  | cons c rest ih =>
    intro post n h
    cases n with
    | zero => simp [isCharBoundary_zero]
    | succ n =>
      by_cases hc : c.utf8Size ≤ n + 1
      · have hred : isCharBoundary (c :: rest) (n + 1)
            = isCharBoundary rest (n + 1 - c.utf8Size) := by
          show (if c.utf8Size ≤ n + 1 then isCharBoundary rest (n + 1 - c.utf8Size)
            else false) = _
          rw [if_pos hc]
        have hred2 : isCharBoundary ((c :: rest) ++ post) (n + 1)
            = isCharBoundary (rest ++ post) (n + 1 - c.utf8Size) := by
          show (if c.utf8Size ≤ n + 1 then isCharBoundary (rest ++ post)
              (n + 1 - c.utf8Size) else false) = _
          rw [if_pos hc]
        rw [hred] at h
        rw [hred2]
        exact ih post _ h
      · rw [show isCharBoundary (c :: rest) (n + 1)
            = (if c.utf8Size ≤ n + 1 then isCharBoundary rest (n + 1 - c.utf8Size)
              else false) from rfl, if_neg hc] at h
        exact absurd h (by simp)

/-- Boundaries shift across a prefix. -/
theorem isCharBoundary_shift (pre : List Char) :
    ∀ (rest : List Char) (n : Nat),
      isCharBoundary (pre ++ rest) (utf8Len pre + n) = isCharBoundary rest n := by
  induction pre with
  | nil => intro rest n; rw [utf8Len_nil, Nat.zero_add]; rfl
  | cons c pre ih =>
    intro rest n
    rw [List.cons_append, utf8Len_cons, Nat.add_assoc, isCharBoundary_cons_add]
    exact ih rest n

theorem utf8Len_take_le (l : List Char) (k : Nat) :
    utf8Len (l.take k) ≤ utf8Len l := by
  conv_rhs => rw [← List.take_append_drop k l]
  rw [utf8Len_append]
  omega

/-- A boundary of a word, shifted by the byte offset at which the word
occurs in the text, is a boundary of the whole text. -/
theorem isCharBoundary_of_decomp (pre w post : List Char) (n : Nat)
    (h : ∃ i, n = utf8Len (w.take i)) :
    isCharBoundary (pre ++ w ++ post) (utf8Len pre + n) = true := by
  obtain ⟨i, rfl⟩ := h
  rw [List.append_assoc, isCharBoundary_shift]
  exact isCharBoundary_append_left w post _ (isCharBoundary_take w i)

/-! ## Intra-word splitter lemmas -/

/-- Consuming a run of alphanumeric, non-apostrophe-like characters
accumulates all of them onto the current token, starting it at the
current byte offset if no token was open. -/
theorem splitWordLoop_alnum_run (word_offset : Nat) :
    ∀ (y rest : List Char) (b : Nat) (prev : Option Char)
      (tokens : List PendingToken) (txt : List Char) (cs : Option Nat) (e : Nat),
      y ≠ [] →
      (∀ c ∈ y, isAlnumChar c = true ∧ is_apostrophe_like c = false) →
      splitWordLoop word_offset (y ++ rest) b prev tokens txt cs e
        = splitWordLoop word_offset rest (b + utf8Len y) (some (y.getLastD 'a'))
            tokens (txt ++ y) (some (cs.getD b)) (b + utf8Len y) := by
  intro y
  induction y with
  | nil => intro rest b prev tokens txt cs e hne _; exact absurd rfl hne
  | cons c ys ih =>
    intro rest b prev tokens txt cs e _ hy
    obtain ⟨hc, hca⟩ := hy c (by simp)
    have hstep : splitWordLoop word_offset ((c :: ys) ++ rest) b prev tokens txt cs e
        = splitWordLoop word_offset (ys ++ rest) (b + c.utf8Size) (some c) tokens
            (txt ++ [c]) (some (cs.getD b)) (b + c.utf8Size) := by
      cases cs with
      | none => simp [splitWordLoop, optCharIsAlnum, headIsAlnum, hca, hc]
      | some s => simp [splitWordLoop, optCharIsAlnum, headIsAlnum, hca, hc]
    cases ys with
    | nil =>
      rw [hstep]
      simp [utf8Len_cons, utf8Len_nil]
    | cons d ds =>
      rw [hstep, ih rest (b + c.utf8Size) (some c) tokens (txt ++ [c])
        (some (cs.getD b)) (b + c.utf8Size) (by simp)
        (fun x hx => hy x (List.mem_cons_of_mem c hx))]
      simp [utf8Len_cons, List.getLastD_cons, List.append_assoc, Nat.add_assoc]

/-- One loop step, elision branch. -/
theorem splitWordLoop_step_elide (ofs : Nat) (c : Char) (tail : List Char) (b : Nat)
    (prev : Option Char) (tokens : List PendingToken) (txt : List Char)
    (cs : Option Nat) (e : Nat)
    (h : (is_apostrophe_like c && optCharIsAlnum prev && headIsAlnum tail) = true) :
    splitWordLoop ofs (c :: tail) b prev tokens txt cs e
      = splitWordLoop ofs tail (b + c.utf8Size) (some c) tokens txt cs
          (b + c.utf8Size) := by
  simp [splitWordLoop, h]

/-- One loop step, accumulation branch. -/
theorem splitWordLoop_step_alnum (ofs : Nat) (c : Char) (tail : List Char) (b : Nat)
    (prev : Option Char) (tokens : List PendingToken) (txt : List Char)
    (cs : Option Nat) (e : Nat)
    (h1 : (is_apostrophe_like c && optCharIsAlnum prev && headIsAlnum tail) = false)
    (h2 : isAlnumChar c = true) :
    splitWordLoop ofs (c :: tail) b prev tokens txt cs e
      = splitWordLoop ofs tail (b + c.utf8Size) (some c) tokens (txt ++ [c])
          (some (cs.getD b)) (b + c.utf8Size) := by
  cases cs with
  | none => simp [splitWordLoop, h1, h2]
  | some s => simp [splitWordLoop, h1, h2]

/-- One loop step, splitting branch. -/
theorem splitWordLoop_step_other (ofs : Nat) (c : Char) (tail : List Char) (b : Nat)
    (prev : Option Char) (tokens : List PendingToken) (txt : List Char)
    (cs : Option Nat) (e : Nat)
    (h1 : (is_apostrophe_like c && optCharIsAlnum prev && headIsAlnum tail) = false)
    (h2 : isAlnumChar c = false) :
    splitWordLoop ofs (c :: tail) b prev tokens txt cs e
      = splitWordLoop ofs tail (b + c.utf8Size) (some c)
          (flush_pending_token tokens ofs txt cs e) [] none 0 := by
  simp [splitWordLoop, h1, h2]

/-- Soundness of `flush_pending_token`: it preserves per-token facts,
the ordering chain, and upper bounds on end offsets. -/
theorem flush_pending_token_sound (ofs : Nat) (w : List Char)
    (tokens : List PendingToken) (txt : List Char) (cs : Option Nat) (e : Nat)
    (htoks : ∀ t ∈ tokens, SplitTokOK ofs w t)
    (hchain : List.Chain' (fun t u => t.offset_to ≤ u.offset_from) tokens)
    (hsome : ∀ s, cs = some s →
      s ≤ e ∧ (∃ i, s = utf8Len (w.take i)) ∧ (∃ j, e = utf8Len (w.take j))
        ∧ utf8Len txt ≤ e - s ∧ ∀ t ∈ tokens, t.offset_to ≤ ofs + s) :
    (∀ t ∈ flush_pending_token tokens ofs txt cs e, SplitTokOK ofs w t)
    ∧ List.Chain' (fun t u => t.offset_to ≤ u.offset_from)
        (flush_pending_token tokens ofs txt cs e)
    ∧ ∀ bnd, (∀ t ∈ tokens, t.offset_to ≤ ofs + bnd) →
        (∀ s, cs = some s → e ≤ bnd) →
        ∀ t ∈ flush_pending_token tokens ofs txt cs e, t.offset_to ≤ ofs + bnd := by
  cases cs with
  | none => exact ⟨htoks, hchain, fun bnd hb _ => hb⟩
  | some s =>
    obtain ⟨hse, hiB, hjB, hlen, htos⟩ := hsome s rfl
    by_cases htxt : txt.isEmpty = true
    · have hred : flush_pending_token tokens ofs txt (some s) e = tokens := by
        simp [flush_pending_token, htxt]
      rw [hred]
      exact ⟨htoks, hchain, fun bnd hb _ => hb⟩
    · have hred : flush_pending_token tokens ofs txt (some s) e
          = tokens ++ [⟨txt, ofs + s, ofs + e⟩] := by
        simp [flush_pending_token, htxt]
      rw [hred]
      refine ⟨?_, ?_, ?_⟩
      · intro t ht
        rcases List.mem_append.mp ht with h | h
        · exact htoks t h
        · rw [List.mem_singleton.mp h]
          refine ⟨Nat.add_le_add_left hse ofs, ?_, ?_, ?_⟩
          · obtain ⟨i, hi⟩ := hiB
            exact ⟨i, by rw [hi]⟩
          · obtain ⟨j, hj⟩ := hjB
            exact ⟨j, by rw [hj]⟩
          · show utf8Len txt ≤ (ofs + e) - (ofs + s)
            omega
      · refine List.Chain'.append hchain (List.chain'_singleton _) ?_
        intro x hx y hy
        have hx' : x ∈ tokens := List.mem_of_getLast?_eq_some hx
        have hy' : y = ⟨txt, ofs + s, ofs + e⟩ := (by simpa using hy : _ = y).symm
        rw [hy']
        exact htos x hx'
      · intro bnd hb he t ht
        rcases List.mem_append.mp ht with h | h
        · exact hb t h
        · rw [List.mem_singleton.mp h]
          have := he s rfl
          show ofs + e ≤ ofs + bnd
          omega

/-- The master invariant of the splitter loop: all produced tokens are
well-formed relative to the word and are emitted in offset order. -/
theorem splitWordLoop_sound (ofs : Nat) (w : List Char) :
    ∀ (rest : List Char) (b : Nat) (prev : Option Char)
      (tokens : List PendingToken) (txt : List Char) (cs : Option Nat) (e : Nat),
      (∃ done, w = done ++ rest ∧ utf8Len done = b) →
      (∀ t ∈ tokens, SplitTokOK ofs w t) →
      List.Chain' (fun t u => t.offset_to ≤ u.offset_from) tokens →
      (∀ s, cs = some s →
        s ≤ e ∧ e ≤ b ∧ (∃ i, s = utf8Len (w.take i)) ∧ (∃ j, e = utf8Len (w.take j))
          ∧ utf8Len txt ≤ e - s ∧ ∀ t ∈ tokens, t.offset_to ≤ ofs + s) →
      (cs = none → txt = [] ∧ ∀ t ∈ tokens, t.offset_to ≤ ofs + b) →
      (∀ t ∈ splitWordLoop ofs rest b prev tokens txt cs e, SplitTokOK ofs w t)
      ∧ List.Chain' (fun t u => t.offset_to ≤ u.offset_from)
          (splitWordLoop ofs rest b prev tokens txt cs e) := by
  intro rest
  induction rest with
  | nil =>
    intro b prev tokens txt cs e _ htoks hchain hsome _
    have h := flush_pending_token_sound ofs w tokens txt cs e htoks hchain
      (fun s hs => by
        obtain ⟨h1, _, h3, h4, h5, h6⟩ := hsome s hs
        exact ⟨h1, h3, h4, h5, h6⟩)
    exact ⟨h.1, h.2.1⟩
  | cons c tail ih =>
    intro b prev tokens txt cs e hdone htoks hchain hsome hnone
    obtain ⟨done, hw, hblen⟩ := hdone
    have hdone' : ∃ done', w = done' ++ tail ∧ utf8Len done' = b + c.utf8Size :=
      ⟨done ++ [c],
        by rw [hw, List.append_assoc]; rfl,
        by rw [utf8Len_append, hblen, utf8Len_cons, utf8Len_nil]; omega⟩
    have hbB : b = utf8Len (w.take done.length) := by
      rw [hw, List.take_left, hblen]
    have hbB' : b + c.utf8Size = utf8Len (w.take (done.length + 1)) := by
      rw [hw, List.take_append, List.take_succ_cons, List.take_zero,
        utf8Len_append, hblen, utf8Len_cons, utf8Len_nil]
      omega
    by_cases hcond : (is_apostrophe_like c && optCharIsAlnum prev
        && headIsAlnum tail) = true
    · rw [splitWordLoop_step_elide ofs c tail b prev tokens txt cs e hcond]
      refine ih (b + c.utf8Size) (some c) tokens txt cs (b + c.utf8Size)
        hdone' htoks hchain ?_ ?_
      · intro s hs
        obtain ⟨h1, h2, h3, _, h5, h6⟩ := hsome s hs
        exact ⟨by omega, le_refl _, h3, ⟨done.length + 1, hbB'⟩, by omega, h6⟩
      · intro hn
        obtain ⟨h1, h2⟩ := hnone hn
        exact ⟨h1, fun t ht => le_trans (h2 t ht) (by omega)⟩
    · have hcondf : (is_apostrophe_like c && optCharIsAlnum prev
          && headIsAlnum tail) = false := by
        revert hcond
        cases is_apostrophe_like c && optCharIsAlnum prev && headIsAlnum tail <;> simp
      by_cases hal : isAlnumChar c = true
      · rw [splitWordLoop_step_alnum ofs c tail b prev tokens txt cs e hcondf hal]
        refine ih (b + c.utf8Size) (some c) tokens (txt ++ [c])
          (some (cs.getD b)) (b + c.utf8Size) hdone' htoks hchain ?_ ?_
        · intro s' hs'
          cases cs with
          | some s =>
            obtain ⟨h1, h2, h3, _, h5, h6⟩ := hsome s rfl
            have hs's : s' = s := (by simpa using hs' : s = s').symm
            subst hs's
            refine ⟨by omega, le_refl _, h3, ⟨done.length + 1, hbB'⟩, ?_, h6⟩
            rw [utf8Len_append, utf8Len_cons, utf8Len_nil]
            omega
          | none =>
            obtain ⟨h1, h2⟩ := hnone rfl
            have hs'b : s' = b := (by simpa using hs' : b = s').symm
            subst hs'b
            refine ⟨by omega, le_refl _, ⟨done.length, hbB⟩,
              ⟨done.length + 1, hbB'⟩, ?_, h2⟩
            rw [h1]
            simp [utf8Len_cons, utf8Len_nil]
        · intro hn
          exact absurd hn (by simp)
      · have hal' : isAlnumChar c = false := by
          revert hal
          cases isAlnumChar c <;> simp
        rw [splitWordLoop_step_other ofs c tail b prev tokens txt cs e hcondf hal']
        have hf := flush_pending_token_sound ofs w tokens txt cs e htoks hchain
          (fun s hs => by
            obtain ⟨h1, _, h3, h4, h5, h6⟩ := hsome s hs
            exact ⟨h1, h3, h4, h5, h6⟩)
        refine ih (b + c.utf8Size) (some c) (flush_pending_token tokens ofs txt cs e)
          [] none 0 hdone' hf.1 hf.2.1 (fun s hs => nomatch hs) ?_
        intro _
        refine ⟨rfl, ?_⟩
        refine hf.2.2 (b + c.utf8Size) ?_ ?_
        · intro t ht
          cases cs with
          | some s =>
            obtain ⟨h1, h2, _, _, _, h6⟩ := hsome s rfl
            exact le_trans (h6 t ht) (by omega)
          | none =>
            exact le_trans ((hnone rfl).2 t ht) (by omega)
        · intro s hs
          obtain ⟨h1, h2, _, _, _, _⟩ := hsome s hs
          omega

/-- Soundness of `split_word_tokens`: every produced token is
well-formed relative to its word and the tokens are in offset order. -/
theorem split_word_tokens_sound (ofs : Nat) (w : List Char) :
    (∀ t ∈ split_word_tokens ofs w, SplitTokOK ofs w t)
    ∧ List.Chain' (fun t u => t.offset_to ≤ u.offset_from)
        (split_word_tokens ofs w) :=
  splitWordLoop_sound ofs w w 0 none [] [] none 0
    ⟨[], by simp, rfl⟩ (by simp) List.chain'_nil
    (fun s hs => nomatch hs) (fun _ => ⟨rfl, by simp⟩)

/-! ## Word segmenter soundness -/

/-- The segmenter's words occur verbatim in the text at their reported
byte offsets, and are emitted in order with disjoint spans. -/
theorem segLoop_sound (text : List Char) :
    ∀ (rest : List Char) (b : Nat) (acc : Option (Nat × List Char)),
      (∃ pre, text = pre ++ rest ∧ utf8Len pre = b) →
      (∀ s run, acc = some (s, run) → s + utf8Len run = b ∧
          ∃ pre2, text = pre2 ++ (run ++ rest) ∧ utf8Len pre2 = s) →
      (∀ ow ∈ segLoop rest b acc,
          ∃ pre post, text = pre ++ (ow.2 ++ post) ∧ utf8Len pre = ow.1)
      ∧ (∀ ow, (segLoop rest b acc).head? = some ow →
          (∀ s run, acc = some (s, run) → ow.1 = s) ∧ (acc = none → b ≤ ow.1))
      ∧ List.Chain' (fun a c => a.1 + utf8Len a.2 ≤ c.1) (segLoop rest b acc) := by
  intro rest
  induction rest with
  | nil =>
    intro b acc hpre hacc
    cases acc with
    | none =>
      refine ⟨?_, ?_, ?_⟩ <;> simp [segLoop]
    | some sr =>
      obtain ⟨s, run⟩ := sr
      obtain ⟨hlen, pre2, hdec, hplen⟩ := hacc s run rfl
      refine ⟨?_, ?_, ?_⟩
      · intro ow how
        have how' : ow = (s, run) := by
          have : ow ∈ [(s, run)] := how
          simpa using this
        subst how'
        exact ⟨pre2, [], by simpa using hdec, hplen⟩
      · intro ow how
        have how' : ow = (s, run) := by
          have : ([(s, run)] : List (Nat × List Char)).head? = some ow := how
          simp at this
          exact this.symm
        subst how'
        exact ⟨fun s' run' h => by cases h; rfl, fun h => nomatch h⟩
      · exact List.chain'_singleton _
  | cons c rest ih =>
    intro b acc hpre hacc
    obtain ⟨pre, hpre_eq, hpre_len⟩ := hpre
    have hpre' : ∃ pre', text = pre' ++ rest ∧ utf8Len pre' = b + c.utf8Size :=
      ⟨pre ++ [c], by simp [hpre_eq, List.append_assoc],
        by rw [utf8Len_append, hpre_len, utf8Len_cons, utf8Len_nil]; omega⟩
    by_cases hc : isAlnumChar c = true
    · cases acc with
      | none =>
        have hred : segLoop (c :: rest) b none
            = segLoop rest (b + c.utf8Size) (some (b, [c])) := by
          simp [segLoop, hc]
        rw [hred]
        have hih := ih (b + c.utf8Size) (some (b, [c])) hpre'
          (fun s' run' h => by
            cases h
            exact ⟨by rw [utf8Len_cons, utf8Len_nil]; omega,
              pre, by simp [hpre_eq], hpre_len⟩)
        refine ⟨hih.1, ?_, hih.2.2⟩
        intro ow how
        refine ⟨(fun s' run' h => nomatch h), fun _ => ?_⟩
        have := (hih.2.1 ow how).1 b [c] rfl
        omega
      | some sr =>
        obtain ⟨s, run⟩ := sr
        obtain ⟨hlen, pre2, hdec, hplen⟩ := hacc s run rfl
        have hred : segLoop (c :: rest) b (some (s, run))
            = segLoop rest (b + c.utf8Size) (some (s, run ++ [c])) := by
          simp [segLoop, hc]
        rw [hred]
        have hih := ih (b + c.utf8Size) (some (s, run ++ [c])) hpre'
          (fun s' run' h => by
            cases h
            refine ⟨by rw [utf8Len_append, utf8Len_cons, utf8Len_nil]; omega,
              pre2, ?_, hplen⟩
            simp [hdec, List.append_assoc])
        refine ⟨hih.1, ?_, hih.2.2⟩
        intro ow how
        refine ⟨fun s' run' h => ?_, fun h => nomatch h⟩
        cases h
        exact (hih.2.1 ow how).1 s (run ++ [c]) rfl
    · have hc' : isAlnumChar c = false := by
        revert hc
        cases isAlnumChar c <;> simp
      cases acc with
      | none =>
        have hred : segLoop (c :: rest) b none
            = segLoop rest (b + c.utf8Size) none := by
          simp [segLoop, hc']
        rw [hred]
        have hih := ih (b + c.utf8Size) none hpre' (fun s' run' h => nomatch h)
        refine ⟨hih.1, ?_, hih.2.2⟩
        intro ow how
        refine ⟨(fun s' run' h => nomatch h), fun _ => ?_⟩
        have := (hih.2.1 ow how).2 rfl
        omega
      | some sr =>
        obtain ⟨s, run⟩ := sr
        obtain ⟨hlen, pre2, hdec, hplen⟩ := hacc s run rfl
        have hred : segLoop (c :: rest) b (some (s, run))
            = (s, run) :: segLoop rest (b + c.utf8Size) none := by
          simp [segLoop, hc']
        rw [hred]
        have hih := ih (b + c.utf8Size) none hpre' (fun s' run' h => nomatch h)
        refine ⟨?_, ?_, ?_⟩
        · intro ow how
          rcases List.mem_cons.mp how with h | h
          · subst h
            exact ⟨pre2, c :: rest, hdec, hplen⟩
          · exact hih.1 ow h
        · intro ow how
          simp only [List.head?_cons, Option.some.injEq] at how
          subst how
          exact ⟨fun s' run' h => by cases h; rfl, fun h => nomatch h⟩
        · rw [List.chain'_cons']
          refine ⟨?_, hih.2.2⟩
          intro next hnext
          have hb := (hih.2.1 next hnext).2 rfl
          show s + utf8Len run ≤ next.1
          omega

/-- Soundness of the modelled `unicode_word_indices`. -/
theorem unicode_word_indices_sound (text : List Char) :
    (∀ ow ∈ unicode_word_indices text,
      ∃ pre post, text = pre ++ (ow.2 ++ post) ∧ utf8Len pre = ow.1)
    ∧ List.Chain' (fun a c => a.1 + utf8Len a.2 ≤ c.1)
        (unicode_word_indices text) := by
  have h := segLoop_sound text text 0 none ⟨[], rfl, rfl⟩
    (fun s run h => nomatch h)
  exact ⟨h.1, h.2.2⟩

/-! ## Pipeline well-formedness -/

/-- A word-relative well-formed token is text-relative well-formed
once the word's occurrence in the text is known. -/
theorem SplitTokOK_good (text pre w post : List Char) (ofs : Nat)
    (hdec : text = pre ++ (w ++ post)) (hlen : utf8Len pre = ofs)
    (t : PendingToken) (h : SplitTokOK ofs w t) : GoodToken text t := by
  obtain ⟨h1, ⟨i, hi⟩, ⟨j, hj⟩, h4⟩ := h
  have htext : utf8Len text = ofs + (utf8Len w + utf8Len post) := by
    rw [hdec, utf8Len_append, utf8Len_append, hlen]
  have hwj := utf8Len_take_le w j
  refine ⟨h1, by omega, ?_, ?_, h4⟩
  · rw [hi, ← hlen, hdec, ← List.append_assoc]
    exact isCharBoundary_of_decomp pre w post _ ⟨i, rfl⟩
  · rw [hj, ← hlen, hdec, ← List.append_assoc]
    exact isCharBoundary_of_decomp pre w post _ ⟨j, rfl⟩

/-- Soundness of the per-word splitting over the whole word list:
every token is well-formed in the text, tokens appear in offset order,
and all offsets sit at or after the first word's start. -/
theorem splitAll_sound (text : List Char) :
    ∀ (ws : List (Nat × List Char)),
      (∀ ow ∈ ws, ∃ pre post, text = pre ++ (ow.2 ++ post) ∧ utf8Len pre = ow.1) →
      List.Chain' (fun a c => a.1 + utf8Len a.2 ≤ c.1) ws →
      (∀ t ∈ (ws.map (fun w => split_word_tokens w.1 w.2)).flatten, GoodToken text t)
      ∧ List.Chain' (fun t u => t.offset_to ≤ u.offset_from)
          ((ws.map (fun w => split_word_tokens w.1 w.2)).flatten)
      ∧ (∀ t ∈ (ws.map (fun w => split_word_tokens w.1 w.2)).flatten,
          ∀ ow, ws.head? = some ow → ow.1 ≤ t.offset_from) := by
  intro ws
  induction ws with
  | nil => exact fun _ _ => ⟨by simp, by simp, by simp⟩
  | cons ow ws ih =>
    intro hdec hchain
    obtain ⟨o, w⟩ := ow
    obtain ⟨pre, post, hd, hl⟩ := hdec (o, w) (by simp)
    rw [List.chain'_cons'] at hchain
    obtain ⟨hlink, hchain'⟩ := hchain
    have hih := ih (fun x hx => hdec x (List.mem_cons_of_mem _ hx)) hchain'
    have hsw := split_word_tokens_sound o w
    have hflat :
        ((List.map (fun w => split_word_tokens w.1 w.2) ((o, w) :: ws)).flatten)
        = split_word_tokens o w
            ++ (List.map (fun w => split_word_tokens w.1 w.2) ws).flatten := by
      simp
    rw [hflat]
    have hgood : ∀ t ∈ split_word_tokens o w, GoodToken text t :=
      fun t ht => SplitTokOK_good text pre w post o hd hl t (hsw.1 t ht)
    have hfrom : ∀ t ∈ split_word_tokens o w, o ≤ t.offset_from := by
      intro t ht
      obtain ⟨_, ⟨i, hi⟩, _, _⟩ := hsw.1 t ht
      omega
    have hto : ∀ t ∈ split_word_tokens o w, t.offset_to ≤ o + utf8Len w := by
      intro t ht
      obtain ⟨_, _, ⟨j, hj⟩, _⟩ := hsw.1 t ht
      have := utf8Len_take_le w j
      omega
    refine ⟨?_, ?_, ?_⟩
    · intro t ht
      rcases List.mem_append.mp ht with h | h
      · exact hgood t h
      · exact hih.1 t h
    · refine List.Chain'.append hsw.2 hih.2.1 ?_
      intro x hx y hy
      have hx' : x ∈ split_word_tokens o w := List.mem_of_getLast?_eq_some hx
      have hy' : y ∈ (List.map (fun w => split_word_tokens w.1 w.2) ws).flatten :=
        List.mem_of_mem_head? hy
      cases hws : ws.head? with
      | none =>
        rw [List.head?_eq_none_iff] at hws
        subst hws
        simp at hy'
      | some ow' =>
        have h1 : o + utf8Len w ≤ ow'.1 := hlink ow' (by rw [hws]; rfl)
        have h2 := hih.2.2 y hy' ow' hws
        have h3 := hto x hx'
        omega
    · intro t ht ow' how'
      have how'' : ow' = (o, w) := by
        simp only [List.head?_cons, Option.some.injEq] at how'
        exact how'.symm
      subst how''
      rcases List.mem_append.mp ht with h | h
      · exact hfrom t h
      · cases hws : ws.head? with
        | none =>
          rw [List.head?_eq_none_iff] at hws
          subst hws
          simp at h
        | some ow'' =>
          have h1 : o + utf8Len w ≤ ow''.1 := hlink ow'' (by rw [hws]; rfl)
          have h2 := hih.2.2 t h ow'' hws
          omega

/-- Soundness of the concatenated split-token list. -/
theorem splitTokens_sound (text : List Char) :
    (∀ t ∈ splitTokens text, GoodToken text t)
    ∧ List.Chain' (fun t u => t.offset_to ≤ u.offset_from) (splitTokens text) := by
  have h := splitAll_sound text (unicode_word_indices text)
    (unicode_word_indices_sound text).1 (unicode_word_indices_sound text).2
  exact ⟨h.1, h.2.1⟩

/-! ## Apostrophe-merge lemmas -/

/-- `mergeStep` on a list with last element `a`: merge exactly when the
offsets are ordered and the separator is an apostrophe run. -/
theorem mergeStep_concat (text : List Char) (ms : List PendingToken)
    (a b : PendingToken) :
    mergeStep text (ms ++ [a]) b =
      if a.offset_to ≤ b.offset_from
          ∧ separator_is_apostrophe_run (sliceBytes text a.offset_to b.offset_from)
              = true then
        ms ++ [⟨a.text ++ b.text, a.offset_from, b.offset_to⟩]
      else ms ++ [a, b] := by
  unfold mergeStep
  rw [List.getLast?_concat]
  by_cases h1 : a.offset_to ≤ b.offset_from
  · by_cases h2 : separator_is_apostrophe_run (sliceBytes text a.offset_to b.offset_from)
        = true
    · simp [h1, h2, List.dropLast_concat]
    · simp [h1, h2]
  · simp [h1]

/-- The merge fold preserves well-formedness and offset ordering:
starting from a well-formed ordered accumulator whose last token ends
before the incoming tokens begin, the result is well-formed and
ordered. -/
theorem foldl_mergeStep_sound (text : List Char) :
    ∀ (ts acc : List PendingToken),
      (∀ t ∈ acc, GoodToken text t) →
      List.Chain' (fun t u => t.offset_to ≤ u.offset_from) acc →
      (∀ t ∈ ts, GoodToken text t) →
      List.Chain' (fun t u => t.offset_to ≤ u.offset_from) ts →
      (∀ last, acc.getLast? = some last → ∀ h, ts.head? = some h →
        last.offset_to ≤ h.offset_from) →
      (∀ t ∈ ts.foldl (mergeStep text) acc, GoodToken text t)
      ∧ List.Chain' (fun t u => t.offset_to ≤ u.offset_from)
          (ts.foldl (mergeStep text) acc) := by
  intro ts
  induction ts with
  | nil => intro acc h1 h2 _ _ _; exact ⟨h1, h2⟩
  | cons t ts ih =>
    intro acc hag hac htg htc hcross
    rw [List.foldl_cons]
    have htgood : GoodToken text t := htg t (by simp)
    rw [List.chain'_cons'] at htc
    obtain ⟨hlink, htc'⟩ := htc
    rcases List.eq_nil_or_concat' acc with rfl | ⟨ms, last, rfl⟩
    · have hred : mergeStep text [] t = [t] := rfl
      rw [hred]
      refine ih [t] (by simpa using htgood) (List.chain'_singleton t)
        (fun u hu => htg u (List.mem_cons_of_mem _ hu)) htc' ?_
      intro last hlast h hh
      have hlast' : last = t := (by simpa using hlast : t = last).symm
      subst hlast'
      exact hlink h (by rw [hh]; rfl)
    · have hcross' : last.offset_to ≤ t.offset_from :=
        hcross last (List.getLast?_concat ms) t rfl
      rw [mergeStep_concat]
      rw [List.chain'_append] at hac
      obtain ⟨hacms, _, haclink⟩ := hac
      have hmsgood : ∀ u ∈ ms, GoodToken text u :=
        fun u hu => hag u (List.mem_append_left _ hu)
      have hlastgood : GoodToken text last := hag last (by simp)
      by_cases hsep : separator_is_apostrophe_run
          (sliceBytes text last.offset_to t.offset_from) = true
      · rw [if_pos ⟨hcross', hsep⟩]
        have hmgood : GoodToken text
            ⟨last.text ++ t.text, last.offset_from, t.offset_to⟩ := by
          obtain ⟨a1, a2, a3, a4, a5⟩ := hlastgood
          obtain ⟨b1, b2, b3, b4, b5⟩ := htgood
          refine ⟨?_, b2, a3, b4, ?_⟩
          · show last.offset_from ≤ t.offset_to
            omega
          · show utf8Len (last.text ++ t.text) ≤ t.offset_to - last.offset_from
            rw [utf8Len_append]
            omega
        refine ih (ms ++ [⟨last.text ++ t.text, last.offset_from, t.offset_to⟩])
          ?_ ?_ (fun u hu => htg u (List.mem_cons_of_mem _ hu)) htc' ?_
        · intro u hu
          rcases List.mem_append.mp hu with h | h
          · exact hmsgood u h
          · rw [List.mem_singleton.mp h]
            exact hmgood
        · refine List.Chain'.append hacms (List.chain'_singleton _) ?_
          intro x hx y hy
          have hy' : y = ⟨last.text ++ t.text, last.offset_from, t.offset_to⟩ :=
            (by simpa using hy : _ = y).symm
          rw [hy']
          exact haclink x hx last (by rw [List.head?_cons]; rfl)
        · intro u hu h hh
          have hu' : u = ⟨last.text ++ t.text, last.offset_from, t.offset_to⟩ := by
            rw [List.getLast?_concat] at hu
            exact (by simpa using hu : _ = u).symm
          subst hu'
          show t.offset_to ≤ h.offset_from
          exact hlink h (by rw [hh]; rfl)
      · rw [if_neg (fun hc => hsep hc.2)]
        have heq : ms ++ [last, t] = (ms ++ [last]) ++ [t] := by
          simp
        refine ih (ms ++ [last, t]) ?_ ?_
          (fun u hu => htg u (List.mem_cons_of_mem _ hu)) htc' ?_
        · intro u hu
          rw [heq] at hu
          rcases List.mem_append.mp hu with h | h
          · exact hag u h
          · rw [List.mem_singleton.mp h]
            exact htgood
        · rw [heq]
          refine List.Chain'.append ?_ (List.chain'_singleton _) ?_
          · rw [List.chain'_append]
            exact ⟨hacms, List.chain'_singleton _, haclink⟩
          · intro x hx y hy
            have hx' : x = last := by
              rw [List.getLast?_concat] at hx
              exact (by simpa using hx : last = x).symm
            have hy' : y = t := (by simpa using hy : t = y).symm
            rw [hx', hy']
            exact hcross'
        · intro u hu h hh
          have hu' : u = t := by
            rw [heq, List.getLast?_concat] at hu
            exact (by simpa using hu : t = u).symm
          subst hu'
          exact hlink h (by rw [hh]; rfl)

/-- Soundness of the merged token list: all tokens are well-formed and
appear in offset order — in particular all byte slices taken between
consecutive tokens by the merger and the dash-compound expander are in
bounds and aligned to character boundaries. -/
theorem mergedTokens_sound (text : List Char) :
    (∀ t ∈ mergedTokens text, GoodToken text t)
    ∧ List.Chain' (fun t u => t.offset_to ≤ u.offset_from) (mergedTokens text) := by
  have hs := splitTokens_sound text
  exact foldl_mergeStep_sound text (splitTokens text) [] (by simp) List.chain'_nil
    hs.1 hs.2 (fun last hlast => nomatch hlast)

/-- A non-empty byte slice forces a strictly increasing range. -/
theorem slice_nonempty_lt (text : List Char) (a b : Nat)
    (h : sliceBytes text a b ≠ []) : a < b := by
  by_contra hab
  apply h
  have hba : b - a = 0 := by omega
  show takeBytes (dropBytes text a) (b - a) = []
  rw [hba]
  cases dropBytes text a <;> rfl

/-- The run-collection loop preserves well-formedness, including for
the combined compound token it builds. -/
theorem collectDashRun_good (text : List Char) :
    ∀ (l : List PendingToken) (acc : PendingToken),
      GoodToken text acc →
      (∀ t ∈ l, GoodToken text t) →
      (∀ t ∈ (collectDashRun text acc l).1, GoodToken text t)
      ∧ GoodToken text (collectDashRun text acc l).2.1
      ∧ (∀ t ∈ (collectDashRun text acc l).2.2, GoodToken text t) := by
  intro l
  induction l with
  | nil =>
    intro acc ha _
    refine ⟨by simp [collectDashRun], ?_, by simp [collectDashRun]⟩
    show GoodToken text acc
    exact ha
  | cons t rest ih =>
    intro acc ha hl
    by_cases hsep : separator_is_dash_run
        (sliceBytes text acc.offset_to t.offset_from) = true
    · have hlt : acc.offset_to < t.offset_from :=
        slice_nonempty_lt text _ _ ((separator_is_dash_run_iff _).mp hsep).1
      have htg : GoodToken text t := hl t (by simp)
      have hacc' : GoodToken text
          ⟨acc.text ++ t.text, acc.offset_from, t.offset_to⟩ := by
        obtain ⟨a1, a2, a3, a4, a5⟩ := ha
        obtain ⟨b1, b2, b3, b4, b5⟩ := htg
        refine ⟨?_, b2, a3, b4, ?_⟩
        · show acc.offset_from ≤ t.offset_to
          omega
        · show utf8Len (acc.text ++ t.text) ≤ t.offset_to - acc.offset_from
          rw [utf8Len_append]
          omega
      have hred : collectDashRun text acc (t :: rest)
          = (t :: (collectDashRun text
                ⟨acc.text ++ t.text, acc.offset_from, t.offset_to⟩ rest).1,
             (collectDashRun text
                ⟨acc.text ++ t.text, acc.offset_from, t.offset_to⟩ rest).2.1,
             (collectDashRun text
                ⟨acc.text ++ t.text, acc.offset_from, t.offset_to⟩ rest).2.2) := by
        simp only [collectDashRun, hsep, if_true]
      have hihr := ih ⟨acc.text ++ t.text, acc.offset_from, t.offset_to⟩ hacc'
        (fun u hu => hl u (List.mem_cons_of_mem _ hu))
      rw [hred]
      refine ⟨?_, hihr.2.1, hihr.2.2⟩
      intro u hu
      rcases List.mem_cons.mp hu with h | h
      · rw [h]; exact htg
      · exact hihr.1 u h
    · have hsep' : separator_is_dash_run
          (sliceBytes text acc.offset_to t.offset_from) = false := by
        revert hsep
        cases separator_is_dash_run (sliceBytes text acc.offset_to t.offset_from) <;>
          simp
      have hred : collectDashRun text acc (t :: rest) = ([], acc, t :: rest) := by
        simp [collectDashRun, hsep']
      rw [hred]
      exact ⟨by simp, ha, hl⟩

/-- The dash-compound expander outputs only well-formed tokens when its
input tokens are well-formed. -/
theorem expandLoopF_good (text : List Char) :
    ∀ (fuel : Nat) (l : List PendingToken),
      (∀ t ∈ l, GoodToken text t) →
      ∀ t ∈ expandLoopF text fuel l, GoodToken text t := by
  intro fuel
  induction fuel with
  | zero =>
    intro l _ t ht
    simp [expandLoopF] at ht
  | succ fuel ih =>
    intro l hl t ht
    cases l with
    | nil => simp [expandLoopF] at ht
    | cons u rest =>
      have hc := collectDashRun_good text rest u (hl u (by simp))
        (fun x hx => hl x (List.mem_cons_of_mem _ hx))
      by_cases hres : (collectDashRun text u rest).1.isEmpty = true
      · rw [show expandLoopF text (fuel + 1) (u :: rest)
            = u :: expandLoopF text fuel rest by simp [expandLoopF, hres]] at ht
        rcases List.mem_cons.mp ht with h | h
        · rw [h]; exact hl u (by simp)
        · exact ih rest (fun x hx => hl x (List.mem_cons_of_mem _ hx)) t h
      · rw [show expandLoopF text (fuel + 1) (u :: rest)
            = u :: ((collectDashRun text u rest).1
                ++ (collectDashRun text u rest).2.1
                  :: expandLoopF text fuel (collectDashRun text u rest).2.2) by
            simp [expandLoopF, hres]] at ht
        rcases List.mem_cons.mp ht with h | h
        · rw [h]; exact hl u (by simp)
        · rcases List.mem_append.mp h with h | h
          · exact hc.1 t h
          · rcases List.mem_cons.mp h with h | h
            · rw [h]; exact hc.2.1
            · exact ih _ hc.2.2 t h

/-- Every token produced by the full pipeline is well-formed: ordered
in-bounds span on character boundaries, text no longer than the span. -/
theorem tokenize_text_good (text : List Char) :
    ∀ t ∈ tokenize_text text, GoodToken text t :=
  expandLoopF_good text (mergedTokens text).length (mergedTokens text)
    (mergedTokens_sound text).1

/-! ## Stream lemmas -/

/-- Positions along an emitted stream: each token's position is the
wrap-increment of its predecessor's, and the first emitted token's
position is the wrap-increment of the stream's initial token state. -/
theorem emitFrom_positions (fuel : Nat) :
    ∀ s : StreamState,
      List.Chain' (fun a b => b.position = (a.position + 1) % USIZE) (emitFrom fuel s).1
      ∧ ∀ t, (emitFrom fuel s).1.head? = some t →
          t.position = (s.token.position + 1) % USIZE := by
  induction fuel with
  | zero =>
    intro s
    exact ⟨List.chain'_nil, by intro t ht; simp [emitFrom] at ht⟩
  | succ fuel ih =>
    intro s
    obtain ⟨p, tok⟩ := s
    cases p with
    | nil =>
      refine ⟨by simp [emitFrom, advance], ?_⟩
      intro t ht
      simp [emitFrom, advance] at ht
    | cons next rest =>
      have hred : emitFrom (fuel + 1) ⟨next :: rest, tok⟩ =
          (StreamState.token ⟨rest, ⟨next.text, next.offset_from, next.offset_to,
              (tok.position + 1) % USIZE⟩⟩ ::
            (emitFrom fuel ⟨rest, ⟨next.text, next.offset_from, next.offset_to,
              (tok.position + 1) % USIZE⟩⟩).1,
           (emitFrom fuel ⟨rest, ⟨next.text, next.offset_from, next.offset_to,
              (tok.position + 1) % USIZE⟩⟩).2) := rfl
      rw [hred]
      constructor
      · rw [List.chain'_cons']
        refine ⟨?_, (ih _).1⟩
        intro b hb
        exact (ih _).2 b hb
      · intro t ht
        simp only [List.head?_cons, Option.some.injEq] at ht
        rw [← ht]

/-- Every emitted token's text and offsets come verbatim from some
pending token of the stream. -/
theorem emitFrom_offsets (fuel : Nat) :
    ∀ (s : StreamState) (tk : Token), tk ∈ (emitFrom fuel s).1 →
      ∃ p ∈ s.pending_tokens, tk.text = p.text ∧ tk.offset_from = p.offset_from
        ∧ tk.offset_to = p.offset_to := by
  induction fuel with
  | zero =>
    intro s tk h
    simp [emitFrom] at h
  | succ fuel ih =>
    intro s tk h
    obtain ⟨p, tok⟩ := s
    cases p with
    | nil => simp [emitFrom, advance] at h
    | cons next rest =>
      have hred : emitFrom (fuel + 1) ⟨next :: rest, tok⟩ =
          (StreamState.token ⟨rest, ⟨next.text, next.offset_from, next.offset_to,
              (tok.position + 1) % USIZE⟩⟩ ::
            (emitFrom fuel ⟨rest, ⟨next.text, next.offset_from, next.offset_to,
              (tok.position + 1) % USIZE⟩⟩).1,
           (emitFrom fuel ⟨rest, ⟨next.text, next.offset_from, next.offset_to,
              (tok.position + 1) % USIZE⟩⟩).2) := rfl
      rw [hred] at h
      rcases List.mem_cons.mp h with h | h
      · subst h
        exact ⟨next, by simp, rfl, rfl, rfl⟩
      · obtain ⟨q, hq, h1, h2, h3⟩ := ih _ tk h
        exact ⟨q, List.mem_cons_of_mem _ hq, h1, h2, h3⟩

/-!
## C1, C6, C7, C8
-/

/-- C1: refutation of independence across streams on one tokenizer
instance.  Tokenizing `"a"` twice on the same instance emits position 0
the first time and position 1 the second time — `token_stream` never
resets the instance's token, so the position counter carries over —
while text and offsets are identical. -/
theorem c1_position_carries_across_streams :
    (tokenizeOn Token.default ['a']).1 = [⟨['a'], 0, 1, 0⟩]
  ∧ (tokenizeOn (tokenizeOn Token.default ['a']).2 ['a']).1 = [⟨['a'], 0, 1, 1⟩]
  ∧ ((tokenizeOn Token.default ['a']).1.map Token.text
      = (tokenizeOn (tokenizeOn Token.default ['a']).2 ['a']).1.map Token.text)
  ∧ (tokenizeOn Token.default ['a']).1
      ≠ (tokenizeOn (tokenizeOn Token.default ['a']).2 ['a']).1 := by
  decide

/-- C6: within a single stream, every emitted token's position is
exactly one greater, modulo `2 ^ 64`, than the previously emitted
token's position, starting from the wrap-increment of the stream's
initial counter value. -/
theorem c6_positions_increment (text : List Char) (tok : Token) :
    List.Chain' (fun a b => b.position = (a.position + 1) % USIZE)
      (tokenizeOn tok text).1
  ∧ ∀ t, (tokenizeOn tok text).1.head? = some t →
      t.position = (tok.position + 1) % USIZE :=
  emitFrom_positions _ (token_stream tok text)

/-- C6 witness: on input `"a"` with a fresh tokenizer, the single
emitted token has position `(usize::MAX + 1) % 2^64 = 0`. -/
theorem c6_witness :
    (⟨['a'], 0, 1, 0⟩ : Token).position = (Token.default.position + 1) % USIZE :=
  (c6_positions_increment ['a'] Token.default).2 ⟨['a'], 0, 1, 0⟩ (by decide)

/-- C7 counterexample: a word consisting solely of apostrophe-like
characters need not tokenize to the empty sequence.  The modifier
letter apostrophe U+02BC is apostrophe-like but also alphanumeric
(Unicode category Lm, Alphabetic), so `"ʼʼ"` is a word and survives
the splitter: the stream is non-empty. -/
theorem c7_counterexample :
    (['ʼ', 'ʼ'].all is_apostrophe_like) = true
  ∧ tokenize_text ['ʼ', 'ʼ'] = [⟨['ʼ', 'ʼ'], 0, 4⟩]
  ∧ (advance (token_stream Token.default ['ʼ', 'ʼ'])).1 = true := by
  decide

/-- The segmenter finds no word in a text with no word-forming
characters. -/
theorem segLoop_no_alnum (rest : List Char) :
    ∀ b, (∀ c ∈ rest, isAlnumChar c = false) → segLoop rest b none = [] := by
  induction rest with
  | nil => intro b _; rfl
  | cons c tail ih =>
    intro b h
    have hc : isAlnumChar c = false := h c (by simp)
    have : segLoop (c :: tail) b none = segLoop tail (b + c.utf8Size) none := by
      simp [segLoop, hc]
    rw [this]
    exact ih _ (fun d hd => h d (by simp [hd]))

/-- C7 (amended): every pathological input whose characters are all
non-word-forming — the empty string, a string of separators only, a
word of apostrophe-like or dash-like characters none of which is
alphanumeric — produces an empty token sequence: `tokenize_text` is
empty and the first `advance` returns `false` rather than failing. -/
theorem c7_no_word_chars_empty (text : List Char)
    (h : ∀ c ∈ text, isAlnumChar c = false) :
    tokenize_text text = []
  ∧ ∀ tok : Token, (advance (token_stream tok text)).1 = false := by
  have hseg : unicode_word_indices text = [] := segLoop_no_alnum text 0 h
  have htok : tokenize_text text = [] := by
    simp [tokenize_text, mergedTokens, splitTokens, hseg, expand_dash_compounds,
      expandLoopF]
  refine ⟨htok, ?_⟩
  intro tok
  simp [token_stream, htok, advance]

/-- C7 witness: `"-'-"` (dash, apostrophe, dash — none alphanumeric)
tokenizes to the empty sequence and the first `advance` is `false`. -/
theorem c7_witness :
    tokenize_text ['-', '\'', '-'] = []
  ∧ (advance (token_stream Token.default ['-', '\'', '-'])).1 = false :=
  ⟨(c7_no_word_chars_empty ['-', '\'', '-'] (by decide)).1,
    (c7_no_word_chars_empty ['-', '\'', '-'] (by decide)).2 Token.default⟩

/-- C8: the pull contract of the stream.  While pending tokens remain,
`advance` returns `true` and overwrites the current token's text,
offsets and (wrap-incremented) position from the next pending token;
once the queue is empty, `advance` returns `false` and the state is
terminal: after any number of further `advance` calls the stream is
unchanged and `advance` still returns `false` with the token intact. -/
theorem c8_advance_contract :
    (∀ s : StreamState, ∀ t rest, s.pending_tokens = t :: rest →
      advance s = (true, ⟨rest,
        ⟨t.text, t.offset_from, t.offset_to, (s.token.position + 1) % USIZE⟩⟩))
  ∧ (∀ s : StreamState, s.pending_tokens = [] →
      ∀ n : Nat, advance ((fun st => (advance st).2)^[n] s) = (false, s)) := by
  constructor
  · intro s t rest h
    obtain ⟨p, tok⟩ := s
    cases h
    rfl
  · intro s h n
    obtain ⟨p, tok⟩ := s
    cases h
    induction n with
    | zero => rfl
    | succ n ih => rw [Function.iterate_succ_apply]; exact ih

/-- C8 witness: one live step on a singleton queue, and two idle steps
after exhaustion, on concrete states. -/
theorem c8_witness :
    advance ⟨[⟨['a'], 0, 1⟩], ⟨[], 0, 0, 4⟩⟩ = (true, ⟨[], ⟨['a'], 0, 1, 5⟩⟩)
  ∧ advance ((fun st => (advance st).2)^[2] ⟨[], ⟨['a'], 0, 1, 5⟩⟩)
      = (false, ⟨[], ⟨['a'], 0, 1, 5⟩⟩) := by
  constructor
  · have h := c8_advance_contract.1 ⟨[⟨['a'], 0, 1⟩], ⟨[], 0, 0, 4⟩⟩ ⟨['a'], 0, 1⟩ [] rfl
    rw [h]
    decide
  · exact c8_advance_contract.2 ⟨[], ⟨['a'], 0, 1, 5⟩⟩ rfl 2

/-!
## C2, C4
-/

/-- C2: for a maximal run of dash-bridged tokens (every adjacent pair
separated by a non-empty all-dash byte range, not extendable to the
right), the expander keeps every sub-token unchanged and in order and
inserts exactly one compound token — text the concatenation of the
sub-token texts (the dash separators excluded), span from the first
sub-token's start to the last's end — immediately after the last
sub-token of the run; tokens not bridged to their successor pass
through unchanged; and `"state-of-the-art"` tokenizes to the five
tokens `state`, `of`, `the`, `art`, `stateoftheart`. -/
theorem c2_maximal_dash_runs (text : List Char) (t : PendingToken)
    (run rem : List PendingToken)
    (hchain : List.Chain (fun a b =>
      separator_is_dash_run (sliceBytes text a.offset_to b.offset_from) = true) t run)
    (hrun : run ≠ [])
    (hmax : ∀ b, rem.head? = some b →
      separator_is_dash_run
        (sliceBytes text (run.getLastD t).offset_to b.offset_from) = false) :
    expand_dash_compounds (t :: (run ++ rem)) text
      = t :: (run ++
          (⟨t.text ++ (run.map PendingToken.text).flatten, t.offset_from,
            (run.getLastD t).offset_to⟩ : PendingToken)
          :: expand_dash_compounds rem text)
  ∧ (∀ (u : PendingToken) (rest : List PendingToken),
      (∀ b, rest.head? = some b →
        separator_is_dash_run (sliceBytes text u.offset_to b.offset_from) = false) →
      expand_dash_compounds (u :: rest) text = u :: expand_dash_compounds rest text)
  ∧ (tokenize_text "state-of-the-art".data).map PendingToken.text
      = ["state".data, "of".data, "the".data, "art".data, "stateoftheart".data] :=
  ⟨expand_cons_run text t run rem hchain hrun hmax,
   fun u rest h => expand_cons_of_not_bridged text u rest h,
   by decide⟩

/-- C2 witness: the run `a`‑`b` in `"a-b"` expands to both sub-tokens
followed by the single compound `ab` spanning `[0, 3)`. -/
theorem c2_witness :
    expand_dash_compounds [⟨['a'], 0, 1⟩, ⟨['b'], 2, 3⟩] ['a', '-', 'b']
      = [⟨['a'], 0, 1⟩, ⟨['b'], 2, 3⟩, ⟨['a', 'b'], 0, 3⟩] := by
  have h := (c2_maximal_dash_runs ['a', '-', 'b'] ⟨['a'], 0, 1⟩ [⟨['b'], 2, 3⟩] []
    (List.Chain.cons (by decide) List.Chain.nil) (by decide)
    (fun b hb => nomatch hb)).1
  exact h.trans (by decide)

/-- C4: two adjacent pending tokens are merged exactly when the byte
range strictly between them is non-empty and consists entirely of
apostrophe-like characters; the merge concatenates the texts (dropping
the separator), extends the span to `[first.offset_from,
second.offset_to]` and replaces both tokens; it is left-associative
and chains across three consecutively bridged tokens; the merge fold
runs before dash-compounding in `tokenize_text`; and `"sam's-club"`
tokenizes to `sams`, `club`, `samsclub`. -/
theorem c4_apostrophe_merging (text : List Char) (a b c : PendingToken)
    (hab : a.offset_to ≤ b.offset_from) (hbc : b.offset_to ≤ c.offset_from) :
    ([a, b].foldl (mergeStep text) []
        = [⟨a.text ++ b.text, a.offset_from, b.offset_to⟩]
      ↔ sliceBytes text a.offset_to b.offset_from ≠ []
          ∧ (sliceBytes text a.offset_to b.offset_from).all is_apostrophe_like = true)
  ∧ (separator_is_apostrophe_run (sliceBytes text a.offset_to b.offset_from) = true →
      separator_is_apostrophe_run (sliceBytes text b.offset_to c.offset_from) = true →
      [a, b, c].foldl (mergeStep text) []
        = [⟨(a.text ++ b.text) ++ c.text, a.offset_from, c.offset_to⟩])
  ∧ tokenize_text text
      = expand_dash_compounds ((splitTokens text).foldl (mergeStep text) []) text
  ∧ (tokenize_text "sam's-club".data).map PendingToken.text
      = ["sams".data, "club".data, "samsclub".data] := by
  have hfold2 : [a, b].foldl (mergeStep text) [] = mergeStep text ([] ++ [a]) b := rfl
  refine ⟨?_, ?_, rfl, by decide⟩
  · rw [hfold2, mergeStep_concat]
    by_cases h2 : separator_is_apostrophe_run (sliceBytes text a.offset_to b.offset_from)
        = true
    · rw [if_pos ⟨hab, h2⟩]
      simp only [List.nil_append, List.cons.injEq, and_true, true_iff]
      exact (separator_is_apostrophe_run_iff _).mp h2
    · rw [if_neg (fun hc => h2 hc.2)]
      constructor
      · intro heq
        have := congrArg List.length heq
        simp at this
      · intro hc
        exact absurd ((separator_is_apostrophe_run_iff _).mpr hc) h2
  · intro h2ab h2bc
    have step2 : [a, b, c].foldl (mergeStep text) []
        = mergeStep text (mergeStep text ([] ++ [a]) b) c := rfl
    rw [step2, mergeStep_concat, if_pos ⟨hab, h2ab⟩]
    have step3 : mergeStep text
        ([] ++ [(⟨a.text ++ b.text, a.offset_from, b.offset_to⟩ : PendingToken)]) c
        = _ := mergeStep_concat text []
          ⟨a.text ++ b.text, a.offset_from, b.offset_to⟩ c
    rw [List.nil_append] at step3 ⊢
    rw [step3, if_pos ⟨hbc, h2bc⟩]
    rfl

/-- C4 witness: concrete merges — `a` and `b` bridged by `'` in
`"a'b"` merge into one token, and three tokens bridged pairwise in
`"a'b'c"` chain into a single token. -/
theorem c4_witness :
    [⟨['a'], 0, 1⟩, ⟨['b'], 2, 3⟩].foldl (mergeStep ['a', '\'', 'b']) []
        = [⟨['a', 'b'], 0, 3⟩]
  ∧ [⟨['a'], 0, 1⟩, ⟨['b'], 2, 3⟩, ⟨['c'], 4, 5⟩].foldl
        (mergeStep ['a', '\'', 'b', '\'', 'c']) []
      = [⟨['a', 'b', 'c'], 0, 5⟩] := by
  constructor
  · exact ((c4_apostrophe_merging ['a', '\'', 'b'] ⟨['a'], 0, 1⟩ ⟨['b'], 2, 3⟩
      ⟨[], 3, 3⟩ (by decide) (by decide)).1).mpr (by decide)
  · have h := (c4_apostrophe_merging ['a', '\'', 'b', '\'', 'c'] ⟨['a'], 0, 1⟩
      ⟨['b'], 2, 3⟩ ⟨['c'], 4, 5⟩ (by decide) (by decide)).2.1 (by decide) (by decide)
    exact h.trans (by decide)

/-!
## C5, C9, C10
-/

/-- C5: for every input text and every token — whether taken from the
pipeline's pending list or emitted by the stream — the span satisfies
`0 ≤ offset_from ≤ offset_to ≤ byte-length(input)`; this covers
ordinary, apostrophe-merged and dash-compound tokens alike since all
flow through the same pipeline. -/
theorem c5_offsets_in_bounds (text : List Char) (tok : Token) :
    (∀ t ∈ tokenize_text text,
      0 ≤ t.offset_from ∧ t.offset_from ≤ t.offset_to
        ∧ t.offset_to ≤ utf8Len text)
  ∧ (∀ tk ∈ (tokenizeOn tok text).1,
      0 ≤ tk.offset_from ∧ tk.offset_from ≤ tk.offset_to
        ∧ tk.offset_to ≤ utf8Len text) := by
  constructor
  · intro t ht
    obtain ⟨h1, h2, _, _, _⟩ := tokenize_text_good text t ht
    exact ⟨Nat.zero_le _, h1, h2⟩
  · intro tk htk
    obtain ⟨q, hq, _, h2, h3⟩ := emitFrom_offsets _ _ tk htk
    obtain ⟨g1, g2, _, _, _⟩ := tokenize_text_good text q hq
    exact ⟨Nat.zero_le _, by omega, by omega⟩

/-- C5 witness: the single token of `"a"` satisfies the bounds. -/
theorem c5_witness :
    0 ≤ (⟨['a'], 0, 1⟩ : PendingToken).offset_from
  ∧ (⟨['a'], 0, 1⟩ : PendingToken).offset_from
      ≤ (⟨['a'], 0, 1⟩ : PendingToken).offset_to
  ∧ (⟨['a'], 0, 1⟩ : PendingToken).offset_to ≤ utf8Len ['a'] :=
  (c5_offsets_in_bounds ['a'] Token.default).1 ⟨['a'], 0, 1⟩ (by decide)

/-- C9: no slicing operation of the pipeline can panic — in both token
lists from which separator slices are taken (the split list consumed by
the apostrophe merger and the merged list consumed by the dash-compound
expander), consecutive tokens satisfy
`previous.offset_to ≤ next.offset_from` and every offset is an
in-bounds character boundary of the input, so each slice
`text[previous.offset_to .. next.offset_from]` is in bounds and
well-formed. -/
theorem c9_separator_slices_safe (text : List Char) :
    (List.Chain' (fun t u => t.offset_to ≤ u.offset_from) (splitTokens text)
      ∧ List.Chain' (fun t u => t.offset_to ≤ u.offset_from) (mergedTokens text))
  ∧ (∀ t ∈ splitTokens text,
      isCharBoundary text t.offset_from = true
        ∧ isCharBoundary text t.offset_to = true ∧ t.offset_to ≤ utf8Len text)
  ∧ (∀ t ∈ mergedTokens text,
      isCharBoundary text t.offset_from = true
        ∧ isCharBoundary text t.offset_to = true ∧ t.offset_to ≤ utf8Len text) := by
  refine ⟨⟨(splitTokens_sound text).2, (mergedTokens_sound text).2⟩, ?_, ?_⟩
  · intro t ht
    obtain ⟨_, h2, h3, h4, _⟩ := (splitTokens_sound text).1 t ht
    exact ⟨h3, h4, h2⟩
  · intro t ht
    obtain ⟨_, h2, h3, h4, _⟩ := (mergedTokens_sound text).1 t ht
    exact ⟨h3, h4, h2⟩

/-- C9 witness: the token of `"a"` sits on character boundaries. -/
theorem c9_witness :
    isCharBoundary ['a'] (⟨['a'], 0, 1⟩ : PendingToken).offset_from = true
  ∧ isCharBoundary ['a'] (⟨['a'], 0, 1⟩ : PendingToken).offset_to = true
  ∧ (⟨['a'], 0, 1⟩ : PendingToken).offset_to ≤ utf8Len ['a'] :=
  (c9_separator_slices_safe ['a']).2.1 ⟨['a'], 0, 1⟩ (by decide)

/-- C10: for every token of the pipeline and every token emitted by a
stream, the byte length of its text is at most
`offset_to - offset_from`: elision, apostrophe merging and dash
compounding only drop separator bytes that the span still covers. -/
theorem c10_text_within_span (text : List Char) (tok : Token) :
    (∀ t ∈ tokenize_text text, utf8Len t.text ≤ t.offset_to - t.offset_from)
  ∧ (∀ tk ∈ (tokenizeOn tok text).1,
      utf8Len tk.text ≤ tk.offset_to - tk.offset_from) := by
  constructor
  · intro t ht
    exact (tokenize_text_good text t ht).2.2.2.2
  · intro tk htk
    obtain ⟨q, hq, h1, h2, h3⟩ := emitFrom_offsets _ _ tk htk
    rw [h1, h2, h3]
    exact (tokenize_text_good text q hq).2.2.2.2

/-- C10 witness: the elided token of `"Sam's"` has a 4-byte text inside
a 5-byte span. -/
theorem c10_witness :
    utf8Len (⟨['S', 'a', 'm', 's'], 0, 5⟩ : PendingToken).text
      ≤ (⟨['S', 'a', 'm', 's'], 0, 5⟩ : PendingToken).offset_to
        - (⟨['S', 'a', 'm', 's'], 0, 5⟩ : PendingToken).offset_from :=
  (c10_text_within_span "Sam's".data Token.default).1 ⟨['S', 'a', 'm', 's'], 0, 5⟩
    (by decide)

/-!
## C3
-/

/-- C3 counterexample: an apostrophe-like character not flanked by
alphanumerics on both sides need not act as a splitting character.
The modifier letter apostrophe U+02BC is itself alphanumeric (Unicode
category Lm, Alphabetic), so in the word `"Samʼ"` — where the trailing
apostrophe has no following character, hence is not flanked on both
sides — it is accumulated into the token like any letter: the word
yields a single token whose text still contains the apostrophe,
instead of splitting it off. -/
theorem c3_counterexample :
    is_apostrophe_like 'ʼ' = true
  ∧ isAlnumChar 'ʼ' = true
  ∧ split_word_tokens 0 ['S', 'a', 'm', 'ʼ'] = [⟨['S', 'a', 'm', 'ʼ'], 0, 5⟩]
  ∧ tokenize_text ['S', 'a', 'm', 'ʼ'] = [⟨['S', 'a', 'm', 'ʼ'], 0, 5⟩] := by
  decide

/-- C3 (amended): in the Intra-Word Splitter, an apostrophe-like
character whose neighbours within the word are both alphanumeric is
elided — absent from the token's text while the end offset still
advances past its bytes — whereas an apostrophe-like character that is
not flanked by alphanumerics on both sides and is not itself
alphanumeric splits like ordinary punctuation (one that is itself
alphanumeric, such as U+02BC or U+02B9, is instead accumulated like a
letter — see the counterexample); and each of `"Sam's"`, `"Sam’s"`,
`"Samʼs"`, `"Sam`s"`, `"Sam´s"` tokenizes to exactly one token with
text `"Sams"`. -/
theorem c3_intra_word_apostrophes (word_offset : Nat) (x y : List Char) (a : Char)
    (hx : x ≠ []) (hy : y ≠ [])
    (hxa : ∀ c ∈ x, isAlnumChar c = true ∧ is_apostrophe_like c = false)
    (hya : ∀ c ∈ y, isAlnumChar c = true ∧ is_apostrophe_like c = false)
    (ha : is_apostrophe_like a = true) :
    split_word_tokens word_offset (x ++ a :: y)
      = [⟨x ++ y, word_offset, word_offset + utf8Len (x ++ a :: y)⟩]
  ∧ (isAlnumChar a = false →
      split_word_tokens word_offset (a :: y)
        = [⟨y, word_offset + a.utf8Size, word_offset + utf8Len (a :: y)⟩])
  ∧ (tokenize_text "Sam's".data = [⟨"Sams".data, 0, 5⟩]
      ∧ tokenize_text "Sam’s".data = [⟨"Sams".data, 0, 7⟩]
      ∧ tokenize_text "Samʼs".data = [⟨"Sams".data, 0, 6⟩]
      ∧ tokenize_text "Sam`s".data = [⟨"Sams".data, 0, 5⟩]
      ∧ tokenize_text "Sam´s".data = [⟨"Sams".data, 0, 6⟩]) := by
  obtain ⟨yh, yt, rfl⟩ : ∃ h t, y = h :: t := by
    cases y with
    | nil => exact absurd rfl hy
    | cons h t => exact ⟨h, t, rfl⟩
  obtain ⟨hyh, hyha⟩ := hya yh (by simp)
  have hxl : isAlnumChar (x.getLastD 'a') = true := (hxa _ (getLastD_mem x 'a' hx)).1
  have hxl' : isAlnumChar (x.getLast?.getD 'a') = true := by
    rw [← List.getLastD_eq_getLast?]
    exact hxl
  refine ⟨?_, ?_, by decide, by decide, by decide, by decide, by decide⟩
  · show splitWordLoop word_offset (x ++ (a :: yh :: yt)) 0 none [] [] none 0 = _
    rw [splitWordLoop_alnum_run word_offset x (a :: yh :: yt) 0 none [] [] none 0
      hx hxa]
    have hstep : splitWordLoop word_offset (a :: yh :: yt) (0 + utf8Len x)
        (some (x.getLastD 'a')) [] ([] ++ x) (some ((none : Option Nat).getD 0))
        (0 + utf8Len x)
      = splitWordLoop word_offset (yh :: yt) (0 + utf8Len x + a.utf8Size) (some a)
          [] x (some 0) (0 + utf8Len x + a.utf8Size) := by
      simp [splitWordLoop, optCharIsAlnum, headIsAlnum, ha, hxl, hxl', hyh, hyha]
    rw [hstep]
    have hrun2 := splitWordLoop_alnum_run word_offset (yh :: yt) []
      (0 + utf8Len x + a.utf8Size) (some a) [] x (some 0)
      (0 + utf8Len x + a.utf8Size) (by simp) hya
    rw [List.append_nil] at hrun2
    rw [hrun2]
    have hne : (x ++ yh :: yt).isEmpty = false := by
      cases x with
      | nil => exact absurd rfl hx
      | cons c cs => rfl
    show flush_pending_token [] word_offset (x ++ yh :: yt) (some ((0 : Nat))) _ = _
    simp [flush_pending_token, hne, utf8Len_append, utf8Len_cons, Nat.add_assoc]
  · intro hana
    show splitWordLoop word_offset (a :: (yh :: yt)) 0 none [] [] none 0 = _
    have hstep : splitWordLoop word_offset (a :: (yh :: yt)) 0 none [] [] none 0
        = splitWordLoop word_offset (yh :: yt) (0 + a.utf8Size) (some a) [] [] none 0 := by
      simp [splitWordLoop, optCharIsAlnum, headIsAlnum, hana, hyh, hyha,
        flush_pending_token]
    rw [hstep]
    have hrun2 := splitWordLoop_alnum_run word_offset (yh :: yt) [] (0 + a.utf8Size)
      (some a) [] [] none 0 (by simp) hya
    rw [List.append_nil] at hrun2
    rw [hrun2]
    show flush_pending_token [] word_offset ([] ++ yh :: yt)
      (some ((none : Option Nat).getD (0 + a.utf8Size))) _ = _
    simp [flush_pending_token, utf8Len_cons, Nat.add_assoc]

/-- C3 witness: the elision equation instantiated on the word
`"Sam's"` at offset 0: one token `Sams` spanning the elided
apostrophe's byte. -/
theorem c3_witness :
    split_word_tokens 0 ['S', 'a', 'm', '\'', 's'] = [⟨['S', 'a', 'm', 's'], 0, 5⟩] := by
  have h := (c3_intra_word_apostrophes 0 ['S', 'a', 'm'] ['s'] '\''
    (by decide) (by decide) (by decide) (by decide) (by decide)).1
  exact h.trans (by decide)

end UnicodeTokenizer
